import Mathlib

/-!
Shallow embedding of `src/rake.rs` (the RAKE keyword-extraction algorithm).

Modelling conventions, recorded once here:

* Strings are Lean `String`s; `&str` tokens become `String` values taken from
  the character list of the input text.
* The `StopWords` container (module `stopwords`, not under `src/`) is an
  opaque membership test `stopWords : String → Bool`; Rust's Unicode
  `str::to_lowercase` is the opaque field `lower : String → String`.
* The two compiled regexes of `Rake::new` are represented by their character
  classes: `numChar` stands for `\p{N}`, `puncChar` for `\p{P}` and `wsChar`
  for `\s`.  `num_re.is_match s` (pattern `-?\p{N}+[./٫,']?\p{N}*`) holds
  exactly when `s` contains at least one `\p{N}` character, since the one
  mandatory piece of the pattern is a single `\p{N}` and everything else is
  optional; `is_number` is embedded through that equivalence.
* `punc_re.split` (pattern `[^\P{P}-]|\s+-\s+`) is embedded as a left-to-right
  scanner: at the earliest position, either a single punctuation character
  other than a hyphen matches, or a maximal run of whitespace followed by a
  hyphen and a maximal run of whitespace matches (Rust's leftmost-first
  semantics; the greedy `\s+` can only succeed on the maximal run).
* `f64` scores are embedded as `ℚ`; the claims under study are about the
  arithmetic expressions, not about rounding.
* A Rust `HashMap` carrying counters is a function `String → Option Nat`;
  the candidate table, whose entries are later enumerated, is an association
  list updated in place.  A panicking map index (`m[k]` on an absent key) is
  modelled by `Option` propagation: the surrounding computation returns
  `none` where the Rust program would panic.
-/

/-- Configuration of `Rake` (`struct Rake` in `rake.rs`): the stopword set
plus the two fixed patterns, both exposed through their character classes. -/
structure Rake where
  stopWords : String → Bool
  lower : String → String
  numChar : Char → Bool
  puncChar : Char → Bool
  wsChar : Char → Bool

namespace Rake

/-- `NumberChecker::is_number`: `self.num_re.is_match(s)`, i.e. `s` contains a
`\p{N}` character (see the header comment for the equivalence). -/
def is_number (r : Rake) (s : String) : Bool :=
  s.data.any r.numChar

/-- One attempted match of the branch `\s+-\s+` of `punc_re` at the head of
`l`: on success, returns the rest of the input after the match. -/
def matchHyphenSep (r : Rake) (l : List Char) : Option (List Char) :=
  if (l.takeWhile r.wsChar).isEmpty then none
  else
    match l.dropWhile r.wsChar with
    | '-' :: rest2 =>
        if (rest2.takeWhile r.wsChar).isEmpty then none
        else some (rest2.dropWhile r.wsChar)
    | _ => none

/-- The scanner behind `punc_re.split`: `acc` is the segment being built; a
match of either branch of `[^\P{P}-]|\s+-\s+` ends the current segment.  The
`Nat` argument is structural fuel, always at least the length of the input,
so the fuel-exhausted branch is unreachable. -/
def splitPuncAux (r : Rake) : Nat → List Char → List Char → List (List Char)
  | 0, l, acc => [acc ++ l]
  | _ + 1, [], acc => [acc]
  | fuel + 1, c :: rest, acc =>
      if r.puncChar c && c != '-' then
        acc :: splitPuncAux r fuel rest []
      else
        match matchHyphenSep r (c :: rest) with
        | some rest2 => acc :: splitPuncAux r fuel rest2 []
        | none => splitPuncAux r fuel rest (acc ++ [c])

/-- `self.punc_re.split(text)` as a list of character lists. -/
def splitPunc (r : Rake) (l : List Char) : List (List Char) :=
  splitPuncAux r l.length l []

/-- The scanner behind `str::split_whitespace`: maximal runs of
non-whitespace characters, empty runs dropped. -/
def splitWsAux (r : Rake) : List Char → List Char → List (List Char)
  | [], acc => if acc.isEmpty then [] else [acc]
  | c :: rest, acc =>
      if r.wsChar c then
        if acc.isEmpty then splitWsAux r rest []
        else acc :: splitWsAux r rest []
      else splitWsAux r rest (acc ++ [c])

/-- `s.split_whitespace()` for a segment, yielding tokens as `String`s. -/
def tokensOfSeg (r : Rake) (seg : List Char) : List String :=
  (splitWsAux r seg []).map fun cs => String.mk cs

/-- The stopword buffer loop inside `Rake::phrases`: walk the tokens of one
segment, closing the phrase buffer at every stopword and at the segment
end. -/
def segPhrasesAux (r : Rake) : List String → List String → List (List String)
  | [], buf => if buf.isEmpty then [] else [buf]
  | w :: rest, buf =>
      if r.stopWords (r.lower w) then
        if buf.isEmpty then segPhrasesAux r rest []
        else buf :: segPhrasesAux r rest []
      else segPhrasesAux r rest (buf ++ [w])

/-- `Rake::phrases`: split on `punc_re`, drop empty segments, and run the
stopword buffer loop on the whitespace tokens of each segment. -/
def phrases (r : Rake) (text : String) : List (List String) :=
  (((splitPunc r text.data).filter fun s => !s.isEmpty).map
    fun seg => segPhrasesAux r (tokensOfSeg r seg) []).flatten

/-- The `len` computed per phrase in `Rake::word_scores`: the number of
non-numeric tokens (the phrase's effective length). -/
def effLen (r : Rake) (phrase : List String) : Nat :=
  (phrase.map fun w => if r.is_number w then 0 else 1).sum

/-- `*m.entry(w).or_insert(0) += k` on a counter map. -/
def updAdd (m : String → Option Nat) (w : String) (k : Nat) :
    String → Option Nat :=
  fun x => if x = w then some ((m w).getD 0 + k) else m x

/-- The body of the phrase loop of `Rake::word_scores`: when the effective
length is positive, bump frequency by 1 and degree by `len - 1` for every
non-numeric token. -/
def procPhrase (r : Rake)
    (st : (String → Option Nat) × (String → Option Nat))
    (phrase : List String) :
    (String → Option Nat) × (String → Option Nat) :=
  let len := effLen r phrase
  if 0 < len then
    (phrase.filter fun w => !r.is_number w).foldl
      (fun st w => (updAdd st.1 w 1, updAdd st.2 w (len - 1))) st
  else st

/-- The `word_freq` and `word_degree` maps after the phrase loop of
`Rake::word_scores`. -/
def wordFreqDeg (r : Rake) (phs : List (List String)) :
    (String → Option Nat) × (String → Option Nat) :=
  phs.foldl (procPhrase r) (fun _ => none, fun _ => none)

/-- `Rake::word_scores`: one entry `(word_degree[word] + freq) / freq` per
entry of `word_freq`.  The Rust loop indexes `word_degree[word]`, which
panics when the degree entry is missing; that case is modelled as `none`
and proved unreachable (`word_scores` has an entry exactly when both counter
maps do). -/
def word_scores (r : Rake) (phs : List (List String)) :
    String → Option ℚ :=
  fun w =>
    match (wordFreqDeg r phs).1 w, (wordFreqDeg r phs).2 w with
    | some f, some d => some (((d : ℚ) + (f : ℚ)) / (f : ℚ))
    | _, _ => none

/-- The `candidate_score` accumulation of `Rake::candidate_keywords`:
`candidate_score += word_scores[word]` over the non-numeric tokens.  The
panicking index on an absent key is modelled by `Option` propagation. -/
def candidate_score (r : Rake) (ws : String → Option ℚ)
    (phrase : List String) : Option ℚ :=
  (phrase.filter fun w => !r.is_number w).foldl
    (fun acc w =>
      match acc, ws w with
      | some a, some s => some (a + s)
      | _, _ => none)
    (some 0)

/-- `*map.entry(k).or_insert(0) = v` on an association-list map: overwrite in
place when the key is present, append otherwise. -/
def upsert (k : String) (v : ℚ) : List (String × ℚ) → List (String × ℚ)
  | [] => [(k, v)]
  | (k', v') :: rest =>
      if k' = k then (k, v) :: rest else (k', v') :: upsert k v rest

/-- One iteration of the phrase loop of `Rake::candidate_keywords`:
`*keyword_score.entry(phrase.join(" ")).or_insert(0f64) = candidate_score`. -/
def ctStep (r : Rake) (ws : String → Option ℚ)
    (acc : Option (List (String × ℚ))) (phrase : List String) :
    Option (List (String × ℚ)) :=
  match acc with
  | none => none
  | some m =>
      match candidate_score r ws phrase with
      | some c => some (upsert (String.intercalate " " phrase) c m)
      | none => none

/-- The `keyword_score` map built by the phrase loop of
`Rake::candidate_keywords`: key `phrase.join(" ")`, value the phrase's
candidate score, overwriting on repetition. -/
def candidate_table (r : Rake) (phs : List (List String))
    (ws : String → Option ℚ) : Option (List (String × ℚ)) :=
  phs.foldl (ctStep r ws) (some [])

/-- Lookup in the association-list candidate table. -/
def alookup : List (String × ℚ) → String → Option ℚ
  | [], _ => none
  | e :: rest, k => if e.1 = k then some e.2 else alookup rest k

/-- Ordering used to rank keywords: higher score first, ties by candidate
text. -/
def kwLE (a b : String × ℚ) : Prop :=
  b.2 < a.2 ∨ (a.2 = b.2 ∧ a.1 ≤ b.1)

instance : DecidableRel kwLE := fun a b => by
  unfold kwLE; infer_instance

instance : IsTotal (String × ℚ) kwLE where
  total a b := by
    rcases lt_trichotomy a.2 b.2 with h | h | h
    · exact Or.inr (Or.inl h)
    · rcases le_total a.1 b.1 with h1 | h1
      · exact Or.inl (Or.inr ⟨h, h1⟩)
      · exact Or.inr (Or.inr ⟨h.symm, h1⟩)
    · exact Or.inl (Or.inl h)

instance : IsTrans (String × ℚ) kwLE where
  trans a b c hab hbc := by
    rcases hab with h1 | ⟨e1, k1⟩
    · rcases hbc with h2 | ⟨e2, _⟩
      · exact Or.inl (h2.trans h1)
      · exact Or.inl (e2 ▸ h1)
    · rcases hbc with h2 | ⟨e2, k2⟩
      · exact Or.inl (e1 ▸ h2)
      · exact Or.inr ⟨e1.trans e2, k1.trans k2⟩

instance : IsAntisymm (String × ℚ) kwLE where
  antisymm a b hab hba := by
    rcases hab with h1 | ⟨e1, k1⟩
    · rcases hba with h2 | ⟨e2, _⟩
      · exact absurd (h1.trans h2) (lt_irrefl _)
      · exact absurd h1 (e2 ▸ lt_irrefl _)
    · rcases hba with h2 | ⟨e2, k2⟩
      · exact absurd h2 (e1 ▸ lt_irrefl _)
      · exact Prod.ext (le_antisymm k1 k2) e1

/-- Modelled from the spec: `KeywordScore::sort_by_score` lives in the
`keyword` module, which is not under `src/`.  Section 4.4 of the spec fixes
its contract: the candidate table as a list "sorted by score descending",
with a deterministic tie-break on equal scores, lexicographic on the
candidate key. -/
def sortKeywords (l : List (String × ℚ)) : List (String × ℚ) :=
  l.insertionSort kwLE

/-- `Rake::candidate_keywords`: build the candidate table, turn it into a
list (`KeywordScore::from_map`) and sort it (`sort_by_score`). -/
def candidate_keywords (r : Rake) (phs : List (List String))
    (ws : String → Option ℚ) : Option (List (String × ℚ)) :=
  (candidate_table r phs ws).map sortKeywords

/-- `Rake::run`: segment, score words globally, then score and rank the
candidates. -/
def run (r : Rake) (text : String) : Option (List (String × ℚ)) :=
  let phs := phrases r text
  candidate_keywords r phs (word_scores r phs)

/-- The sequence of `word` values seen by the token loop of `Rake::phrases`:
the whitespace tokens of every non-empty segment, in source order. -/
def tokenStream (r : Rake) (text : String) : List String :=
  (((splitPunc r text.data).filter fun s => !s.isEmpty).map
    fun seg => tokensOfSeg r seg).flatten

/-- The frequency counter accumulated by the phrase loop of
`Rake::word_scores`, written as a closed-form count: occurrences of `w`
among the non-numeric tokens of the phrases of positive effective
length. -/
def Fcnt (r : Rake) (phs : List (List String)) (w : String) : Nat :=
  (phs.map fun p =>
    if 0 < effLen r p then (p.filter fun x => !r.is_number x).count w
    else 0).sum

/-- The degree counter accumulated by the phrase loop of
`Rake::word_scores`, written as a closed-form count. -/
def Dcnt (r : Rake) (phs : List (List String)) (w : String) : Nat :=
  (phs.map fun p =>
    if 0 < effLen r p then
      (effLen r p - 1) * (p.filter fun x => !r.is_number x).count w
    else 0).sum

/-- `total_frequency` in the words of the specification: how many times `w`
occurs in phrases of positive effective length. -/
def totalFrequency (r : Rake) (phs : List (List String)) (w : String) : Nat :=
  ((phs.filter fun p => 0 < effLen r p).map fun p => p.count w).sum

/-- `total_degree` in the words of the specification: over every occurrence
of `w` in a phrase of positive effective length, the sum of
`effective_length - 1`. -/
def totalDegree (r : Rake) (phs : List (List String)) (w : String) : Nat :=
  ((phs.filter fun p => 0 < effLen r p).map
    fun p => p.count w * (effLen r p - 1)).sum

/-- A concrete configuration used to exercise the definitions on closed
inputs: stopwords `and` and `the`, ASCII character classes. -/
def rake0 : Rake where
  stopWords := fun s => s == "and" || s == "the"
  lower := fun s => s
  numChar := fun c => c.isDigit
  puncChar := fun c => c == ',' || c == '.'
  wsChar := fun c => c == ' '

/-- A concrete word-score table used to exercise candidate scoring on closed
inputs. -/
def wsDemo : String → Option ℚ := fun w =>
  if w = "a" then some 3
  else if w = "b" then some 5
  else if w = "a b" then some 7
  else none

theorem foldl_updAdd (k : Nat) :
    ∀ (l : List String) (m : String → Option Nat) (w : String),
      l.foldl (fun m x => updAdd m x k) m w =
        if m w = none ∧ l.count w = 0 then none
        else some ((m w).getD 0 + k * l.count w)
  | [], m, w => by
      cases h : m w <;> simp [h]
  | x :: l, m, w => by
      rw [List.foldl_cons, foldl_updAdd k l]
      by_cases hxw : w = x
      · subst hxw
        cases h : m w <;>
          simp [updAdd, List.count_cons, h, Nat.mul_add, Nat.add_comm,
            Nat.add_assoc, Nat.add_left_comm]
      · simp [updAdd, hxw, List.count_cons,
          fun h : x = w => hxw h.symm]

theorem foldl_updAdd_pair (k : Nat) :
    ∀ (l : List String)
      (st : (String → Option Nat) × (String → Option Nat)),
      l.foldl (fun st x => (updAdd st.1 x 1, updAdd st.2 x k)) st =
        (l.foldl (fun m x => updAdd m x 1) st.1,
          l.foldl (fun m x => updAdd m x k) st.2)
  | [], _ => rfl
  | x :: l, st => by
      rw [List.foldl_cons, foldl_updAdd_pair k l, List.foldl_cons,
        List.foldl_cons]

theorem wordFreqDeg_fold (r : Rake) :
    ∀ (phs : List (List String))
      (st : (String → Option Nat) × (String → Option Nat)) (w : String),
      ((phs.foldl (procPhrase r) st).1 w =
        if st.1 w = none ∧ Fcnt r phs w = 0 then none
        else some ((st.1 w).getD 0 + Fcnt r phs w))
      ∧ ((phs.foldl (procPhrase r) st).2 w =
        if st.2 w = none ∧ Fcnt r phs w = 0 then none
        else some ((st.2 w).getD 0 + Dcnt r phs w))
  | [], st, w => by
      constructor
      · cases h : st.1 w <;> simp [Fcnt, h]
      · cases h : st.2 w <;> simp [Fcnt, Dcnt, h]
  | p :: phs, st, w => by
      rw [List.foldl_cons]
      by_cases hl : 0 < effLen r p
      · have hproc : procPhrase r st p =
            ((p.filter fun x => !r.is_number x).foldl
                (fun m x => updAdd m x 1) st.1,
              (p.filter fun x => !r.is_number x).foldl
                (fun m x => updAdd m x (effLen r p - 1)) st.2) := by
          rw [procPhrase]
          simp only [hl, if_pos]
          exact foldl_updAdd_pair (effLen r p - 1) _ st
        obtain ⟨ih1, ih2⟩ := wordFreqDeg_fold r phs (procPhrase r st p) w
        set c := (p.filter fun x => !r.is_number x).count w with hc
        have h1 : (procPhrase r st p).1 w =
            if st.1 w = none ∧ c = 0 then none
            else some ((st.1 w).getD 0 + 1 * c) := by
          rw [hproc]; exact foldl_updAdd 1 _ st.1 w
        have h2 : (procPhrase r st p).2 w =
            if st.2 w = none ∧ c = 0 then none
            else some ((st.2 w).getD 0 + (effLen r p - 1) * c) := by
          rw [hproc]; exact foldl_updAdd (effLen r p - 1) _ st.2 w
        have hF : Fcnt r (p :: phs) w = c + Fcnt r phs w := by
          simp [Fcnt, hl]
        have hD : Dcnt r (p :: phs) w =
            (effLen r p - 1) * c + Dcnt r phs w := by
          simp [Dcnt, hl]
        rw [ih1, ih2, hF, hD]
        constructor
        · by_cases hA : st.1 w = none
          · by_cases hc0 : c = 0
            · simp [h1, hA, hc0]
            · simp [h1, hA, hc0, Nat.add_assoc]
          · simp [h1, hA, Nat.add_assoc]
        · by_cases hA : st.2 w = none
          · by_cases hB : st.1 w = none
            · by_cases hc0 : c = 0
              · simp [h1, h2, hA, hB, hc0]
              · simp [h1, h2, hA, hB, hc0, Nat.add_assoc]
            · by_cases hc0 : c = 0
              · simp [h1, h2, hA, hB, hc0]
              · simp [h1, h2, hA, hB, hc0, Nat.add_assoc]
          · by_cases hB : st.1 w = none
            · by_cases hc0 : c = 0
              · simp [h1, h2, hA, hB, hc0]
              · simp [h1, h2, hA, hB, hc0, Nat.add_assoc]
            · by_cases hc0 : c = 0
              · simp [h1, h2, hA, hB, hc0]
              · simp [h1, h2, hA, hB, hc0, Nat.add_assoc]
      · have hproc : procPhrase r st p = st := by
          rw [procPhrase]; simp [hl]
        have hF : Fcnt r (p :: phs) w = Fcnt r phs w := by
          simp [Fcnt, hl]
        have hD : Dcnt r (p :: phs) w = Dcnt r phs w := by
          simp [Dcnt, hl]
        rw [hproc, hF, hD]
        exact wordFreqDeg_fold r phs st w

theorem wordFreq_eq (r : Rake) (phs : List (List String)) (w : String) :
    (wordFreqDeg r phs).1 w =
      if Fcnt r phs w = 0 then none else some (Fcnt r phs w) := by
  have h := (wordFreqDeg_fold r phs (fun _ => none, fun _ => none) w).1
  simpa [wordFreqDeg] using h

theorem wordDeg_eq (r : Rake) (phs : List (List String)) (w : String) :
    (wordFreqDeg r phs).2 w =
      if Fcnt r phs w = 0 then none else some (Dcnt r phs w) := by
  have h := (wordFreqDeg_fold r phs (fun _ => none, fun _ => none) w).2
  simpa [wordFreqDeg] using h

theorem word_scores_eq (r : Rake) (phs : List (List String)) (w : String) :
    word_scores r phs w =
      if Fcnt r phs w = 0 then none
      else some (((Dcnt r phs w : ℚ) + (Fcnt r phs w : ℚ)) /
        (Fcnt r phs w : ℚ)) := by
  rw [word_scores, wordFreq_eq, wordDeg_eq]
  by_cases h : Fcnt r phs w = 0 <;> simp [h]

theorem Fcnt_cons (r : Rake) (p : List String) (phs : List (List String))
    (w : String) :
    Fcnt r (p :: phs) w =
      (if 0 < effLen r p then (p.filter fun x => !r.is_number x).count w
        else 0) + Fcnt r phs w := by
  simp [Fcnt]

theorem Dcnt_cons (r : Rake) (p : List String) (phs : List (List String))
    (w : String) :
    Dcnt r (p :: phs) w =
      (if 0 < effLen r p then
        (effLen r p - 1) * (p.filter fun x => !r.is_number x).count w
        else 0) + Dcnt r phs w := by
  simp [Dcnt]

theorem Fcnt_eq_totalFrequency (r : Rake) (phs : List (List String))
    (w : String) (hw : r.is_number w = false) :
    Fcnt r phs w = totalFrequency r phs w := by
  induction phs with
  | nil => rfl
  | cons p phs ih =>
      have hstep : totalFrequency r (p :: phs) w =
          (if 0 < effLen r p then p.count w else 0) +
            totalFrequency r phs w := by
        by_cases hl : 0 < effLen r p <;>
          simp [totalFrequency, List.filter_cons, hl]
      rw [Fcnt_cons, hstep, ih]
      by_cases hl : 0 < effLen r p
      · rw [if_pos hl, if_pos hl, List.count_filter (by simp [hw])]
      · rw [if_neg hl, if_neg hl]

theorem Dcnt_eq_totalDegree (r : Rake) (phs : List (List String))
    (w : String) (hw : r.is_number w = false) :
    Dcnt r phs w = totalDegree r phs w := by
  induction phs with
  | nil => rfl
  | cons p phs ih =>
      have hstep : totalDegree r (p :: phs) w =
          (if 0 < effLen r p then p.count w * (effLen r p - 1) else 0) +
            totalDegree r phs w := by
        by_cases hl : 0 < effLen r p <;>
          simp [totalDegree, List.filter_cons, hl]
      rw [Dcnt_cons, hstep, ih]
      by_cases hl : 0 < effLen r p
      · rw [if_pos hl, if_pos hl, List.count_filter (by simp [hw]),
          Nat.mul_comm]
      · rw [if_neg hl, if_neg hl]

theorem Fcnt_of_is_number (r : Rake) (phs : List (List String))
    (w : String) (hw : r.is_number w = true) : Fcnt r phs w = 0 := by
  apply List.sum_eq_zero
  intro x hx
  obtain ⟨p, _, rfl⟩ := List.mem_map.1 hx
  by_cases hl : 0 < effLen r p
  · rw [if_pos hl]
    rw [List.count_eq_zero]
    intro hmem
    have := (List.mem_filter.1 hmem).2
    simp [hw] at this
  · rw [if_neg hl]

theorem word_scores_of_is_number (r : Rake) (phs : List (List String))
    (w : String) (hw : r.is_number w = true) :
    word_scores r phs w = none := by
  rw [word_scores_eq, if_pos (Fcnt_of_is_number r phs w hw)]

/-- C1: over any list of phrases, the word-score table maps each non-numeric
word `w` that occurs in at least one phrase of positive effective length to
`(total_degree w + total_frequency w) / total_frequency w`, where the
frequency counts `w`'s occurrences in such phrases and the degree adds
`effective_length - 1` for each of those occurrences. -/
theorem word_score_formula (r : Rake) (phs : List (List String))
    (w : String) (hw : r.is_number w = false)
    (hocc : 0 < totalFrequency r phs w) :
    word_scores r phs w =
      some (((totalDegree r phs w : ℚ) + (totalFrequency r phs w : ℚ)) /
        (totalFrequency r phs w : ℚ)) := by
  rw [word_scores_eq, Fcnt_eq_totalFrequency r phs w hw,
    Dcnt_eq_totalDegree r phs w hw, if_neg (by omega)]

/-- Witness for C1: in the document `[["quick", "fox"]]` the word `quick` is
non-numeric, occurs once, and scores `(1 + 1) / 1`. -/
theorem word_score_formula_witness :
    rake0.is_number "quick" = false ∧
      0 < totalFrequency rake0 [["quick", "fox"]] "quick" ∧
      word_scores rake0 [["quick", "fox"]] "quick" =
        some (((totalDegree rake0 [["quick", "fox"]] "quick" : ℚ) +
          (totalFrequency rake0 [["quick", "fox"]] "quick" : ℚ)) /
          (totalFrequency rake0 [["quick", "fox"]] "quick" : ℚ)) :=
  ⟨by decide, by decide,
    word_score_formula rake0 [["quick", "fox"]] "quick" (by decide)
      (by decide)⟩

/-- C8: a word reaches the score division only with frequency at least one,
and every word with a frequency entry also has a degree entry, so neither
the division by `freq` nor the index `word_degree[word]` can fail. -/
theorem word_score_division_safe (r : Rake) (phs : List (List String))
    (w : String) (f : Nat) (hf : (wordFreqDeg r phs).1 w = some f) :
    1 ≤ f ∧ ∃ d, (wordFreqDeg r phs).2 w = some d := by
  rw [wordFreq_eq] at hf
  by_cases h : Fcnt r phs w = 0
  · rw [if_pos h] at hf; exact absurd hf (by simp)
  · rw [if_neg h] at hf
    refine ⟨?_, Dcnt r phs w, by rw [wordDeg_eq, if_neg h]⟩
    have := Option.some_inj.1 hf
    omega

/-- Witness for C8: `quick` has frequency 1 in `[["quick", "fox"]]`. -/
theorem word_score_division_safe_witness :
    (wordFreqDeg rake0 [["quick", "fox"]]).1 "quick" = some 1 ∧
      1 ≤ 1 ∧ ∃ d, (wordFreqDeg rake0 [["quick", "fox"]]).2 "quick" = some d :=
  ⟨by decide,
    word_score_division_safe rake0 [["quick", "fox"]] "quick" 1 (by decide)⟩

/-- C7: a phrase whose tokens are all numeric puts none of its tokens into
the word-score table, and its candidate score is computed as 0 with no
failed lookup. -/
theorem all_numeric_phrase_excluded (r : Rake) (phs : List (List String))
    (p : List String) (_hp : p ∈ phs)
    (hall : ∀ w ∈ p, r.is_number w = true) :
    (∀ w ∈ p, word_scores r phs w = none) ∧
      candidate_score r (word_scores r phs) p = some 0 := by
  refine ⟨fun w hw => word_scores_of_is_number r phs w (hall w hw), ?_⟩
  have hfil : (p.filter fun w => !r.is_number w) = [] :=
    List.filter_eq_nil_iff.2 fun w hw => by simp [hall w hw]
  rw [candidate_score, hfil]
  rfl

/-- Witness for C7: the all-numeric phrase `["12", "34"]`. -/
theorem all_numeric_phrase_excluded_witness :
    (["12", "34"] ∈ [["12", "34"]] ∧ ∀ w ∈ ["12", "34"],
      rake0.is_number w = true) ∧
      (∀ w ∈ ["12", "34"], word_scores rake0 [["12", "34"]] w = none) ∧
      candidate_score rake0 (word_scores rake0 [["12", "34"]])
        ["12", "34"] = some 0 :=
  ⟨⟨by decide, by decide⟩,
    all_numeric_phrase_excluded rake0 [["12", "34"]] ["12", "34"]
      (by decide) (by decide)⟩

/-- C10: `is_number` is an anywhere-match of the number pattern, so a token
with a decimal digit anywhere in it (the digit class is contained in
`\p{N}`) is classified numeric, never enters the word-score table, is
skipped by candidate scoring, and still shows up as part of the candidate
key (here: an entry under the token itself, scored 0). -/
theorem is_number_matches_anywhere (r : Rake) (s : String)
    (hdig : ∀ c, c.isDigit = true → r.numChar c = true)
    (hs : ∃ c ∈ s.data, c.isDigit = true) :
    r.is_number s = true ∧
      (∀ phs, word_scores r phs s = none) ∧
      (∀ p : List String, s ∉ p.filter fun w => !r.is_number w) ∧
      candidate_table r [[s]] (word_scores r [[s]]) = some [(s, 0)] := by
  obtain ⟨c, hc, hcd⟩ := hs
  have hnum : r.is_number s = true :=
    List.any_eq_true.2 ⟨c, hc, hdig c hcd⟩
  have hfil : ∀ p : List String, s ∉ p.filter fun w => !r.is_number w := by
    intro p hmem
    have := (List.mem_filter.1 hmem).2
    simp [hnum] at this
  refine ⟨hnum, fun phs => word_scores_of_is_number r phs s hnum, hfil, ?_⟩
  have hsc : candidate_score r (word_scores r [[s]]) [s] = some 0 := by
    have : ([s].filter fun w => !r.is_number w) = [] := by
      simp [hnum]
    rw [candidate_score, this]; rfl
  rw [candidate_table, List.foldl_cons, List.foldl_nil]
  simp only [ctStep, hsc]
  rfl

theorem foldl_addOpt (ws : String → Option ℚ) :
    ∀ (l : List String) (a : ℚ), (∀ w ∈ l, (ws w).isSome = true) →
      l.foldl
        (fun acc w =>
          match acc, ws w with
          | some a, some s => some (a + s)
          | _, _ => none)
        (some a) = some (a + (l.map fun w => (ws w).getD 0).sum)
  | [], a, _ => by simp
  | x :: l, a, h => by
      obtain ⟨s, hs⟩ := Option.isSome_iff_exists.1 (h x (by simp))
      rw [List.foldl_cons]
      have hrec := foldl_addOpt ws l (a + s)
        (fun w hw => h w (List.mem_cons_of_mem x hw))
      simp only [hs] at hrec ⊢
      rw [hrec, List.map_cons, List.sum_cons, hs]
      simp [add_assoc]

theorem effLen_pos_of_mem (r : Rake) (p : List String) (w : String)
    (hw : w ∈ p) (hnum : r.is_number w = false) : 0 < effLen r p := by
  have h1 : (1 : Nat) ∈ p.map fun x => if r.is_number x then 0 else 1 :=
    List.mem_map.2 ⟨w, hw, by simp [hnum]⟩
  have := List.single_le_sum (l := p.map fun x => if r.is_number x then 0 else 1)
    (fun x _ => Nat.zero_le x) 1 h1
  unfold effLen
  omega

theorem Fcnt_pos_of_mem (r : Rake) (phs : List (List String))
    (p : List String) (w : String) (hp : p ∈ phs) (hw : w ∈ p)
    (hnum : r.is_number w = false) : 0 < Fcnt r phs w := by
  have hterm : ((if 0 < effLen r p then
      (p.filter fun x => !r.is_number x).count w else 0) : Nat) ∈
      phs.map fun q =>
        if 0 < effLen r q then (q.filter fun x => !r.is_number x).count w
        else 0 :=
    List.mem_map.2 ⟨p, hp, rfl⟩
  have hle := List.single_le_sum
    (l := phs.map fun q =>
      if 0 < effLen r q then (q.filter fun x => !r.is_number x).count w
      else 0)
    (fun x _ => Nat.zero_le x) _ hterm
  have hpos : 0 < if 0 < effLen r p then
      (p.filter fun x => !r.is_number x).count w else 0 := by
    rw [if_pos (effLen_pos_of_mem r p w hw hnum)]
    exact List.count_pos_iff.2 (List.mem_filter.2 ⟨hw, by simp [hnum]⟩)
  unfold Fcnt
  omega

theorem word_scores_isSome_of_mem (r : Rake) (phs : List (List String))
    (p : List String) (w : String) (hp : p ∈ phs) (hw : w ∈ p)
    (hnum : r.is_number w = false) :
    (word_scores r phs w).isSome = true := by
  rw [word_scores_eq,
    if_neg (Nat.pos_iff_ne_zero.1 (Fcnt_pos_of_mem r phs p w hp hw hnum))]
  rfl

theorem mem_upsert_self (k : String) (v : ℚ) :
    ∀ m : List (String × ℚ), (k, v) ∈ upsert k v m
  | [] => by simp [upsert]
  | (k', v') :: rest => by
      by_cases h : k' = k
      · simp [upsert, h]
      · simp only [upsert, if_neg h]
        exact List.mem_cons_of_mem _ (mem_upsert_self k v rest)

theorem exists_mem_upsert (k0 k : String) (v : ℚ) :
    ∀ m : List (String × ℚ), (∃ v0, (k0, v0) ∈ m) →
      ∃ v1, (k0, v1) ∈ upsert k v m := by
  intro m hm
  by_cases hk : k0 = k
  · exact ⟨v, hk ▸ mem_upsert_self k v m⟩
  · obtain ⟨v0, hv0⟩ := hm
    refine ⟨v0, ?_⟩
    induction m with
    | nil => simp at hv0
    | cons e rest ih =>
        obtain ⟨k', v'⟩ := e
        by_cases h : k' = k
        · subst h
          rcases List.mem_cons.1 hv0 with heq | hmem
          · exact absurd (congrArg Prod.fst heq) hk
          · simp only [upsert, if_pos rfl]
            exact List.mem_cons_of_mem _ hmem
        · simp only [upsert, if_neg h]
          rcases List.mem_cons.1 hv0 with heq | hmem
          · exact heq ▸ List.mem_cons_self _ _
          · exact List.mem_cons_of_mem _ (ih hmem)

theorem candidate_table_go (r : Rake) (ws : String → Option ℚ) :
    ∀ (phs : List (List String)) (acc : List (String × ℚ)),
      (∀ p ∈ phs, (candidate_score r ws p).isSome = true) →
      ∃ m, phs.foldl (ctStep r ws) (some acc) = some m ∧
        (∀ p ∈ phs, ∃ v, (String.intercalate " " p, v) ∈ m) ∧
        (∀ k, (∃ v, (k, v) ∈ acc) → ∃ v, (k, v) ∈ m)
  | [], acc, _ => ⟨acc, rfl, by simp, fun _ h => h⟩
  | p :: phs, acc, h => by
      obtain ⟨c, hc⟩ := Option.isSome_iff_exists.1 (h p (by simp))
      have hstep : ctStep r ws (some acc) p =
          some (upsert (String.intercalate " " p) c acc) := by
        simp only [ctStep, hc]
      obtain ⟨m, hm, hall, hpres⟩ := candidate_table_go r ws phs
        (upsert (String.intercalate " " p) c acc)
        (fun q hq => h q (List.mem_cons_of_mem p hq))
      refine ⟨m, by rw [List.foldl_cons, hstep]; exact hm, ?_, ?_⟩
      · intro q hq
        rcases List.mem_cons.1 hq with rfl | hmem
        · exact hpres _ ⟨c, mem_upsert_self _ c acc⟩
        · exact hall q hmem
      · intro k hk
        exact hpres k (exists_mem_upsert k _ c acc hk)

/-- C2: with the word-score table computed from the same phrase list, every
phrase's candidate score is the sum of the word scores of its non-numeric
tokens, every looked-up word is present in the table (the index
`word_scores[word]` never hits an absent key), and the candidate key of
every phrase — all tokens, numeric ones included, joined by single
spaces — is a key of the resulting table. -/
theorem candidate_scoring_correct (r : Rake) (phs : List (List String)) :
    (∀ p ∈ phs, ∀ w ∈ p, r.is_number w = false →
      (word_scores r phs w).isSome = true) ∧
    (∀ p ∈ phs, candidate_score r (word_scores r phs) p =
      some (((p.filter fun w => !r.is_number w).map
        fun w => (word_scores r phs w).getD 0).sum)) ∧
    ∃ m, candidate_table r phs (word_scores r phs) = some m ∧
      ∀ p ∈ phs, ∃ v, (String.intercalate " " p, v) ∈ m := by
  have hsome : ∀ p ∈ phs, ∀ w ∈ p, r.is_number w = false →
      (word_scores r phs w).isSome = true :=
    fun p hp w hw hnum => word_scores_isSome_of_mem r phs p w hp hw hnum
  have hfil : ∀ p ∈ phs, ∀ w ∈ (p.filter fun w => !r.is_number w),
      (word_scores r phs w).isSome = true := by
    intro p hp w hw
    obtain ⟨hwp, hnum⟩ := List.mem_filter.1 hw
    exact hsome p hp w hwp (by simpa using hnum)
  refine ⟨hsome, ?_, ?_⟩
  · intro p hp
    rw [candidate_score, foldl_addOpt (word_scores r phs) _ 0 (hfil p hp),
      zero_add]
  · obtain ⟨m, hm, hall, _⟩ := candidate_table_go r (word_scores r phs) phs []
      (fun p hp => by
        rw [candidate_score, foldl_addOpt (word_scores r phs) _ 0 (hfil p hp)]
        rfl)
    exact ⟨m, hm, hall⟩

/-- Witness for C2: the document `[["quick", "fox"], ["12", "fox"]]`. -/
theorem candidate_scoring_correct_witness :
    (∀ p ∈ [["quick", "fox"], ["12", "fox"]], ∀ w ∈ p,
      rake0.is_number w = false →
      (word_scores rake0 [["quick", "fox"], ["12", "fox"]] w).isSome = true) ∧
    (∀ p ∈ [["quick", "fox"], ["12", "fox"]],
      candidate_score rake0
        (word_scores rake0 [["quick", "fox"], ["12", "fox"]]) p =
      some (((p.filter fun w => !rake0.is_number w).map
        fun w =>
          (word_scores rake0 [["quick", "fox"], ["12", "fox"]] w).getD
            0).sum)) ∧
    ∃ m, candidate_table rake0 [["quick", "fox"], ["12", "fox"]]
        (word_scores rake0 [["quick", "fox"], ["12", "fox"]]) = some m ∧
      ∀ p ∈ [["quick", "fox"], ["12", "fox"]],
        ∃ v, (String.intercalate " " p, v) ∈ m :=
  candidate_scoring_correct rake0 [["quick", "fox"], ["12", "fox"]]

theorem ct_fold_none (r : Rake) (ws : String → Option ℚ) :
    ∀ phs : List (List String), phs.foldl (ctStep r ws) none = none
  | [] => rfl
  | p :: phs => by
      rw [List.foldl_cons]
      exact ct_fold_none r ws phs

theorem alookup_upsert_self (k : String) (v : ℚ) :
    ∀ m : List (String × ℚ), alookup (upsert k v m) k = some v
  | [] => by simp [upsert, alookup]
  | (k', v') :: rest => by
      by_cases h : k' = k
      · simp [upsert, h, alookup]
      · simp only [upsert, if_neg h, alookup]
        exact alookup_upsert_self k v rest

theorem alookup_upsert_ne (k0 k : String) (v : ℚ) (h : k0 ≠ k) :
    ∀ m : List (String × ℚ), alookup (upsert k v m) k0 = alookup m k0
  | [] => by
      simp only [upsert, alookup]
      rw [if_neg fun e => h e.symm]
  | (k', v') :: rest => by
      by_cases hk : k' = k
      · subst hk
        simp only [upsert, if_pos rfl, alookup]
        rw [if_neg fun e => h e.symm, if_neg fun e => h e.symm]
      · simp only [upsert, if_neg hk, alookup]
        by_cases he : k' = k0
        · rw [if_pos he, if_pos he]
        · rw [if_neg he, if_neg he]
          exact alookup_upsert_ne k0 k v h rest

theorem ct_no_later_occurrence (r : Rake) (ws : String → Option ℚ)
    (k : String) :
    ∀ (post : List (List String)) (acc m : List (String × ℚ)),
      post.foldl (ctStep r ws) (some acc) = some m →
      (∀ q ∈ post, String.intercalate " " q ≠ k) →
      alookup m k = alookup acc k
  | [], acc, m, hm, _ => by rw [Option.some_inj.1 hm]
  | q :: post, acc, m, hm, hno => by
      rw [List.foldl_cons] at hm
      cases hc : candidate_score r ws q with
      | none =>
          simp only [ctStep, hc, ct_fold_none r ws post] at hm
          exact Option.noConfusion hm
      | some c =>
          simp only [ctStep, hc] at hm
          have := ct_no_later_occurrence r ws k post
            (upsert (String.intercalate " " q) c acc) m hm
            (fun q' hq' => hno q' (List.mem_cons_of_mem q hq'))
          rw [this, alookup_upsert_ne k (String.intercalate " " q) c
            (fun e => hno q (List.mem_cons_self q post) e.symm) acc]

/-- C3: when several phrase occurrences produce the same candidate key, the
candidate table holds the score of the last-processed occurrence — lookup of
the key in the finished table returns the candidate score of the latest
phrase carrying that key, so each occurrence overwrites its predecessor
instead of accumulating or averaging. -/
theorem candidate_key_overwrites (r : Rake) (ws : String → Option ℚ)
    (phs pre p post : _) (m : List (String × ℚ)) (k : String)
    (hsplit : phs = pre ++ p :: post)
    (hkey : String.intercalate " " p = k)
    (hlast : ∀ q ∈ post, String.intercalate " " q ≠ k)
    (hm : candidate_table r phs ws = some m) :
    alookup m k = candidate_score r ws p := by
  subst hsplit
  rw [candidate_table, List.foldl_append, List.foldl_cons] at hm
  cases hmid : (pre.foldl (ctStep r ws) (some [])) with
  | none =>
      rw [hmid] at hm
      simp only [ctStep, ct_fold_none r ws post] at hm
      exact Option.noConfusion hm
  | some mid =>
      rw [hmid] at hm
      cases hc : candidate_score r ws p with
      | none =>
          simp only [ctStep, hc, ct_fold_none r ws post] at hm
          exact Option.noConfusion hm
      | some c =>
          simp only [ctStep, hc] at hm
          rw [ct_no_later_occurrence r ws k post
            (upsert (String.intercalate " " p) c mid) m hm hlast]
          subst hkey
          exact alookup_upsert_self (String.intercalate " " p) c mid

/-- Witness for C10: the token `abc123` with the ASCII digit class. -/
theorem is_number_matches_anywhere_witness :
    ((∀ c, c.isDigit = true → rake0.numChar c = true) ∧
      ∃ c ∈ "abc123".data, c.isDigit = true) ∧
      rake0.is_number "abc123" = true ∧
      word_scores rake0 [["abc123"]] "abc123" = none ∧
      candidate_table rake0 [["abc123"]] (word_scores rake0 [["abc123"]]) =
        some [("abc123", 0)] := by
  have h := is_number_matches_anywhere rake0 "abc123"
    (fun c hc => hc) (by decide)
  exact ⟨⟨fun c hc => hc, by decide⟩, h.1, h.2.1 [["abc123"]], h.2.2.2⟩

/-- Witness for C3: the key `a b` is produced both by the phrase
`["a", "b"]` (scored 8) and later by the phrase `["a b"]` (scored 7); the
finished table holds 7, the score of the later occurrence. -/
theorem candidate_key_overwrites_witness :
    ([["a", "b"], ["a b"]] =
        [["a", "b"]] ++ ["a b"] :: ([] : List (List String))) ∧
    String.intercalate " " ["a b"] = "a b" ∧
    (∀ q ∈ ([] : List (List String)),
      String.intercalate " " q ≠ "a b") ∧
    candidate_table rake0 [["a", "b"], ["a b"]] wsDemo =
      some [("a b", 7)] ∧
    alookup [("a b", 7)] "a b" = candidate_score rake0 wsDemo ["a b"] :=
  ⟨rfl, by decide, by simp, by with_unfolding_all decide,
    candidate_key_overwrites rake0 wsDemo [["a", "b"], ["a b"]]
      [["a", "b"]] ["a b"] [] [("a b", 7)] "a b" rfl (by decide)
      (by simp) (by with_unfolding_all decide)⟩

theorem segPhrasesAux_forall (r : Rake) :
    ∀ (toks buf : List String),
      (∀ w ∈ buf, r.stopWords (r.lower w) = false) →
      ∀ p ∈ segPhrasesAux r toks buf,
        p ≠ [] ∧ ∀ w ∈ p, r.stopWords (r.lower w) = false
  | [], buf => by
      intro hbuf p hp
      cases hb : buf.isEmpty with
      | true => simp [segPhrasesAux, hb] at hp
      | false =>
          simp only [segPhrasesAux, hb, Bool.false_eq_true, if_false,
            List.mem_singleton] at hp
          subst hp
          exact ⟨by simpa using hb, hbuf⟩
  | w :: rest, buf => by
      intro hbuf p hp
      cases hs : r.stopWords (r.lower w) with
      | true =>
          simp only [segPhrasesAux, hs, if_true] at hp
          cases hb : buf.isEmpty with
          | true =>
              rw [if_pos hb] at hp
              exact segPhrasesAux_forall r rest [] (by simp) p hp
          | false =>
              rw [if_neg (by simp [hb])] at hp
              rcases List.mem_cons.1 hp with rfl | hp
              · exact ⟨by simpa using hb, hbuf⟩
              · exact segPhrasesAux_forall r rest [] (by simp) p hp
      | false =>
          simp only [segPhrasesAux, hs, Bool.false_eq_true,
            if_false] at hp
          refine segPhrasesAux_forall r rest (buf ++ [w]) ?_ p hp
          intro x hx
          rcases List.mem_append.1 hx with hx | hx
          · exact hbuf x hx
          · rw [List.mem_singleton.1 hx]
            exact hs

theorem segPhrasesAux_flatten (r : Rake) :
    ∀ (toks buf : List String),
      (segPhrasesAux r toks buf).flatten =
        buf ++ toks.filter fun w => !r.stopWords (r.lower w)
  | [], buf => by
      cases hb : buf.isEmpty with
      | true =>
          have : buf = [] := by simpa using hb
          simp [segPhrasesAux, hb, this]
      | false => simp [segPhrasesAux, hb]
  | w :: rest, buf => by
      cases hs : r.stopWords (r.lower w) with
      | true =>
          have hfil : ((w :: rest).filter
              fun x => !r.stopWords (r.lower x)) =
              rest.filter fun x => !r.stopWords (r.lower x) := by
            simp [List.filter_cons, hs]
          cases hb : buf.isEmpty with
          | true =>
              have hbe : buf = [] := by simpa using hb
              simp only [segPhrasesAux, hs, if_true, hb, hfil, hbe,
                List.nil_append]
              simpa using segPhrasesAux_flatten r rest []
          | false =>
              simp only [segPhrasesAux, hs, if_true, hb,
                Bool.false_eq_true, if_false, List.flatten_cons, hfil]
              rw [segPhrasesAux_flatten r rest []]
              simp
      | false =>
          have hfil : ((w :: rest).filter
              fun x => !r.stopWords (r.lower x)) =
              w :: rest.filter fun x => !r.stopWords (r.lower x) := by
            simp [List.filter_cons, hs]
          simp only [segPhrasesAux, hs, Bool.false_eq_true, if_false,
            hfil]
          rw [segPhrasesAux_flatten r rest (buf ++ [w])]
          simp

theorem splitWsAux_infix (r : Rake) :
    ∀ (l acc : List Char), ∀ cs ∈ splitWsAux r l acc,
      (∃ t, t <+: l ∧ cs = acc ++ t) ∨ cs <:+: l
  | [], acc => by
      intro cs hcs
      cases hb : acc.isEmpty with
      | true => simp [splitWsAux, hb] at hcs
      | false =>
          simp only [splitWsAux, hb, Bool.false_eq_true, if_false,
            List.mem_singleton] at hcs
          subst hcs
          exact Or.inl ⟨[], List.nil_prefix, by simp⟩
  | c :: rest, acc => by
      intro cs hcs
      cases hw : r.wsChar c with
      | true =>
          simp only [splitWsAux, hw, if_true] at hcs
          have hrec : cs ∈ splitWsAux r rest [] → cs <:+: c :: rest := by
            intro h
            rcases splitWsAux_infix r rest [] cs h with ⟨t, ht, hcseq⟩ | ht
            · rw [hcseq, List.nil_append]
              exact List.infix_cons ht.isInfix
            · exact List.infix_cons ht
          cases hb : acc.isEmpty with
          | true =>
              rw [if_pos hb] at hcs
              exact Or.inr (hrec hcs)
          | false =>
              rw [if_neg (by simp [hb])] at hcs
              rcases List.mem_cons.1 hcs with rfl | hcs
              · exact Or.inl ⟨[], List.nil_prefix, by simp⟩
              · exact Or.inr (hrec hcs)
      | false =>
          simp only [splitWsAux, hw, Bool.false_eq_true, if_false] at hcs
          rcases splitWsAux_infix r rest (acc ++ [c]) cs hcs with
            ⟨t, ht, rfl⟩ | ht
          · obtain ⟨u, hu⟩ := ht
            exact Or.inl ⟨c :: t, ⟨u, by rw [List.cons_append, hu]⟩,
              by simp⟩
          · exact Or.inr (List.infix_cons ht)

theorem matchHyphenSep_spec (r : Rake) (l rest2 : List Char)
    (h : matchHyphenSep r l = some rest2) :
    rest2 <:+ l ∧ rest2.length + 3 ≤ l.length := by
  rw [matchHyphenSep] at h
  by_cases h1 : (l.takeWhile r.wsChar).isEmpty
  · rw [if_pos h1] at h
    exact Option.noConfusion h
  · rw [if_neg h1] at h
    have hsplit : l.takeWhile r.wsChar ++ l.dropWhile r.wsChar = l :=
      List.takeWhile_append_dropWhile r.wsChar l
    have h1len : 1 ≤ (l.takeWhile r.wsChar).length := by
      have hne : l.takeWhile r.wsChar ≠ [] := fun he => h1 (by simp [he])
      have := List.length_pos.2 hne
      omega
    split at h
    next rest1 hd =>
        by_cases h2 : (rest1.takeWhile r.wsChar).isEmpty
        · rw [if_pos h2] at h
          exact Option.noConfusion h
        · rw [if_neg h2] at h
          obtain rfl := Option.some_inj.1 h
          have h2len : 1 ≤ (rest1.takeWhile r.wsChar).length := by
            have hne : rest1.takeWhile r.wsChar ≠ [] :=
              fun he => h2 (by simp [he])
            have := List.length_pos.2 hne
            omega
          have hsplit1 :
              rest1.takeWhile r.wsChar ++ rest1.dropWhile r.wsChar =
                rest1 := List.takeWhile_append_dropWhile r.wsChar rest1
          constructor
          · exact ((List.dropWhile_suffix r.wsChar).trans
              ((List.suffix_cons '-' rest1).trans
                (hd ▸ List.dropWhile_suffix r.wsChar)))
          · have e1 := congrArg List.length hsplit
            rw [hd] at e1
            simp only [List.length_append, List.length_cons] at e1
            have e2 := congrArg List.length hsplit1
            simp only [List.length_append] at e2
            omega
    next => exact Option.noConfusion h

theorem splitPuncAux_infix (r : Rake) :
    ∀ (fuel : Nat) (l acc : List Char), l.length ≤ fuel →
      ∀ s ∈ splitPuncAux r fuel l acc,
        (∃ t, t <+: l ∧ s = acc ++ t) ∨ s <:+: l
  | 0, l, acc => by
      intro hlen s hs
      have hl : l = [] := List.length_eq_zero.1 (Nat.le_zero.1 hlen)
      subst hl
      simp only [splitPuncAux, List.append_nil, List.mem_singleton] at hs
      exact Or.inl ⟨[], List.nil_prefix, by simp [hs]⟩
  | fuel + 1, l, acc => by
      intro hlen s hs
      cases l with
      | nil =>
          simp only [splitPuncAux, List.mem_singleton] at hs
          exact Or.inl ⟨[], List.nil_prefix, by simp [hs]⟩
      | cons c rest =>
          simp only [splitPuncAux] at hs
          have hrlen : rest.length ≤ fuel := by
            simp only [List.length_cons] at hlen
            omega
          by_cases hb : (r.puncChar c && c != '-') = true
          · rw [if_pos hb] at hs
            rcases List.mem_cons.1 hs with rfl | hs
            · exact Or.inl ⟨[], List.nil_prefix, by simp⟩
            · rcases splitPuncAux_infix r fuel rest [] hrlen s hs with
                ⟨t, ht, hseq⟩ | ht
              · rw [hseq, List.nil_append]
                exact Or.inr (List.infix_cons ht.isInfix)
              · exact Or.inr (List.infix_cons ht)
          · rw [if_neg hb] at hs
            split at hs
            next rest2 hm =>
                obtain ⟨hsuf, hlen2⟩ :=
                  matchHyphenSep_spec r (c :: rest) rest2 hm
                have hlen' : rest2.length ≤ fuel := by
                  simp only [List.length_cons] at hlen2
                  omega
                rcases List.mem_cons.1 hs with rfl | hs
                · exact Or.inl ⟨[], List.nil_prefix, by simp⟩
                · rcases splitPuncAux_infix r fuel rest2 [] hlen' s hs with
                    ⟨t, ht, hseq⟩ | ht
                  · rw [hseq, List.nil_append]
                    exact Or.inr (ht.isInfix.trans hsuf.isInfix)
                  · exact Or.inr (ht.trans hsuf.isInfix)
            next hm =>
                rcases splitPuncAux_infix r fuel rest (acc ++ [c]) hrlen
                    s hs with ⟨t, ht, hseq⟩ | ht
                · obtain ⟨u, hu⟩ := ht
                  exact Or.inl ⟨c :: t, ⟨u, by rw [List.cons_append, hu]⟩,
                    by simp [hseq]⟩
                · exact Or.inr (List.infix_cons ht)

theorem seg_infix_of_mem (r : Rake) (text : String) (seg : List Char)
    (hseg : seg ∈ splitPunc r text.data) : seg <:+: text.data := by
  rw [splitPunc] at hseg
  rcases splitPuncAux_infix r text.data.length text.data []
      (Nat.le_refl _) seg hseg with ⟨t, ht, hseq⟩ | ht
  · rw [hseq, List.nil_append]
    exact ht.isInfix
  · exact ht

theorem token_infix_of_mem (r : Rake) (seg cs : List Char)
    (hcs : cs ∈ splitWsAux r seg []) : cs <:+: seg := by
  rcases splitWsAux_infix r seg [] cs hcs with ⟨t, ht, hseq⟩ | ht
  · rw [hseq, List.nil_append]
    exact ht.isInfix
  · exact ht

theorem phrases_flatten (r : Rake) (text : String) :
    (phrases r text).flatten =
      (tokenStream r text).filter fun w => !r.stopWords (r.lower w) := by
  rw [phrases, tokenStream]
  generalize (splitPunc r text.data).filter (fun s => !s.isEmpty) = segs
  induction segs with
  | nil => rfl
  | cons seg segs ih =>
      simp only [List.map_cons, List.flatten_cons, List.flatten_append,
        List.filter_append]
      rw [ih, segPhrasesAux_flatten r (tokensOfSeg r seg) [],
        List.nil_append]

/-- C4: every phrase the segmenter emits is non-empty and free of
stopwords (stopword membership is tested on the transient lowercase form
only); the phrase tokens are, in order, a sublist of the token stream of
the text, and every one of them is a verbatim contiguous piece of the
input text. -/
theorem phrases_wellformed (r : Rake) (text : String) :
    (∀ p ∈ phrases r text,
      p ≠ [] ∧ ∀ w ∈ p, r.stopWords (r.lower w) = false) ∧
    (phrases r text).flatten.Sublist (tokenStream r text) ∧
    ∀ w ∈ (phrases r text).flatten, w.data <:+: text.data := by
  refine ⟨?_, ?_, ?_⟩
  · intro p hp
    rw [phrases] at hp
    obtain ⟨pl, hpl, hpmem⟩ := List.mem_flatten.1 hp
    obtain ⟨seg, _, rfl⟩ := List.mem_map.1 hpl
    exact segPhrasesAux_forall r (tokensOfSeg r seg) [] (by simp) p hpmem
  · rw [phrases_flatten]
    exact List.filter_sublist _
  · intro w hw
    have hw2 : w ∈ tokenStream r text := by
      rw [phrases_flatten] at hw
      exact (List.mem_filter.1 hw).1
    rw [tokenStream] at hw2
    obtain ⟨tl, htl, hwmem⟩ := List.mem_flatten.1 hw2
    obtain ⟨seg, hseg, rfl⟩ := List.mem_map.1 htl
    rw [tokensOfSeg] at hwmem
    obtain ⟨cs, hcs, rfl⟩ := List.mem_map.1 hwmem
    exact (token_infix_of_mem r seg cs hcs).trans
      (seg_infix_of_mem r text seg (List.mem_filter.1 hseg).1)

/-- Witness for C4: a text with a stopword, punctuation and mixed case. -/
theorem phrases_wellformed_witness :
    (∀ p ∈ phrases rake0 "Quick fox, the lazy dog",
      p ≠ [] ∧ ∀ w ∈ p, rake0.stopWords (rake0.lower w) = false) ∧
    (phrases rake0 "Quick fox, the lazy dog").flatten.Sublist
      (tokenStream rake0 "Quick fox, the lazy dog") ∧
    ∀ w ∈ (phrases rake0 "Quick fox, the lazy dog").flatten,
      w.data <:+: "Quick fox, the lazy dog".data :=
  phrases_wellformed rake0 "Quick fox, the lazy dog"

theorem splitWsAux_all_ws (r : Rake) :
    ∀ (l acc : List Char), (∀ c ∈ l, r.wsChar c = true) →
      splitWsAux r l acc = if acc.isEmpty then [] else [acc]
  | [], _, _ => rfl
  | c :: rest, acc, h => by
      have hc : r.wsChar c = true := h c (List.mem_cons_self c rest)
      have hrest : ∀ x ∈ rest, r.wsChar x = true :=
        fun x hx => h x (List.mem_cons_of_mem c hx)
      have hr := splitWsAux_all_ws r rest [] hrest
      simp only [List.isEmpty_nil] at hr
      cases hb : acc.isEmpty with
      | true => simp [splitWsAux, hc, hb, hr]
      | false => simp [splitWsAux, hc, hb, hr]

/-- C9: on an input text that is empty or all whitespace, the segmenter
emits no phrases and `run` returns the empty ranked list as an ordinary
value (`some []`, not the `none` that models a failure). -/
theorem whitespace_input_empty_result (r : Rake) (text : String)
    (h : ∀ c ∈ text.data, r.wsChar c = true) :
    phrases r text = [] ∧ run r text = some [] := by
  have hph : phrases r text = [] := by
    rw [phrases]
    rw [List.flatten_eq_nil_iff]
    intro pl hpl
    obtain ⟨seg, hseg, rfl⟩ := List.mem_map.1 hpl
    have hsegchars : ∀ c ∈ seg, r.wsChar c = true := fun c hc =>
      h c ((seg_infix_of_mem r text seg
        (List.mem_filter.1 hseg).1).subset hc)
    rw [tokensOfSeg, splitWsAux_all_ws r seg [] hsegchars]
    rfl
  refine ⟨hph, ?_⟩
  simp only [run]
  rw [hph]
  rfl

/-- Witness for C9: a two-space input under the ASCII configuration. -/
theorem whitespace_input_empty_result_witness :
    (∀ c ∈ "  ".data, rake0.wsChar c = true) ∧
      phrases rake0 "  " = [] ∧ run rake0 "  " = some [] :=
  ⟨by decide, whitespace_input_empty_result rake0 "  " (by decide)⟩

theorem run_eq_map (r : Rake) (text : String) :
    run r text = (candidate_table r (phrases r text)
      (word_scores r (phrases r text))).map sortKeywords := rfl

/-- C5: whenever `run` returns a list, adjacent entries are ordered by
non-increasing score. -/
theorem run_sorted_desc (r : Rake) (text : String)
    (m : List (String × ℚ)) (hm : run r text = some m) :
    m.Chain' fun a b => b.2 ≤ a.2 := by
  rw [run_eq_map] at hm
  obtain ⟨tbl, _, rfl⟩ := Option.map_eq_some'.1 hm
  have hs : List.Sorted kwLE (sortKeywords tbl) :=
    List.sorted_insertionSort kwLE tbl
  have hp : List.Pairwise
      (fun a b : String × ℚ => b.2 ≤ a.2) (sortKeywords tbl) := by
    refine hs.imp ?_
    intro a b hab
    rcases hab with hlt | ⟨heq, _⟩
    · exact le_of_lt hlt
    · exact le_of_eq heq.symm
  exact hp.chain'

/-- Witness for C5: `run` on `"x and y"` and the resulting two-entry
list. -/
theorem run_sorted_desc_witness :
    run rake0 "x and y" = some [("x", 1), ("y", 1)] ∧
      List.Chain' (fun a b : String × ℚ => b.2 ≤ a.2)
        [("x", 1), ("y", 1)] :=
  ⟨by with_unfolding_all decide,
    run_sorted_desc rake0 "x and y" [("x", 1), ("y", 1)]
      (by with_unfolding_all decide)⟩

/-- C6: the only internal nondeterminism on a fixed input is the
enumeration order of the candidate map when it is turned into a list; for
any two enumeration orders the ranked output is the same list, equal to
what `run` returns — two invocations of `run` on the same text therefore
produce identical ranked results, scores and order included. -/
theorem run_deterministic (r : Rake) (text : String)
    (tbl l₁ l₂ : List (String × ℚ))
    (htbl : candidate_table r (phrases r text)
      (word_scores r (phrases r text)) = some tbl)
    (h₁ : l₁.Perm tbl) (h₂ : l₂.Perm tbl) :
    sortKeywords l₁ = sortKeywords l₂ ∧
      run r text = some (sortKeywords l₁) := by
  have key : ∀ la lb : List (String × ℚ), la.Perm lb →
      sortKeywords la = sortKeywords lb := by
    intro la lb hperm
    exact List.eq_of_perm_of_sorted
      ((List.perm_insertionSort kwLE la).trans
        (hperm.trans (List.perm_insertionSort kwLE lb).symm))
      (List.sorted_insertionSort kwLE la)
      (List.sorted_insertionSort kwLE lb)
  refine ⟨key l₁ l₂ (h₁.trans h₂.symm), ?_⟩
  rw [run_eq_map, htbl]
  exact congrArg some (key tbl l₁ h₁.symm)

/-- Witness for C6: both enumeration orders of the candidate table of
`"x and y"` sort to the same ranked list, the one `run` returns. -/
theorem run_deterministic_witness :
    (candidate_table rake0 (phrases rake0 "x and y")
        (word_scores rake0 (phrases rake0 "x and y")) =
      some [("x", 1), ("y", 1)] ∧
      List.Perm [("y", 1), ("x", 1)] [("x", 1), ("y", 1)] ∧
      List.Perm [("x", 1), ("y", 1)] [("x", 1), ("y", 1)]) ∧
    sortKeywords [("y", 1), ("x", 1)] =
      sortKeywords [("x", 1), ("y", 1)] ∧
    run rake0 "x and y" = some (sortKeywords [("y", 1), ("x", 1)]) :=
  ⟨⟨by with_unfolding_all decide, by with_unfolding_all decide,
      by with_unfolding_all decide⟩,
    run_deterministic rake0 "x and y" [("x", 1), ("y", 1)]
      [("y", 1), ("x", 1)] [("x", 1), ("y", 1)]
      (by with_unfolding_all decide) (by with_unfolding_all decide)
      (by with_unfolding_all decide)⟩

end Rake
